import Mathlib

/-!
Verification of the TextShare single-page application (src/index.jsx).

The application core is
  * a text-to-token codec (`encodeText` / `decodeText`, built from the
    platform primitives `encodeURIComponent`, `btoa`, `atob`,
    `decodeURIComponent`),
  * a URL-fragment router (`handleHashChange`),
  * a bounded recent-links history (`handleGenerate` and the load effect).

JavaScript strings are modelled as lists of UTF-16 code units (`JSStr`);
this is exact: it represents ill-formed strings (lone surrogates) that the
codec must reject, and string length / substring match JavaScript
semantics.  The platform primitives are modelled by their specified
semantics (WHATWG forgiving-base64 for `atob`, ECMA-262 Encode/Decode for
the URI functions), and the application functions are translated line by
line from src/index.jsx.
-/

/-- A JavaScript string: a finite sequence of UTF-16 code units
(each a natural number below 2^16; lone surrogates are representable). -/
abbrev JSStr := List Nat

/-- Conversion of a Lean string literal to a JavaScript string
(UTF-16 code units, astral characters become surrogate pairs).
Used only to write concrete inputs in theorems. -/
def jstr (s : String) : JSStr :=
  s.data.flatMap (fun c =>
    if c.toNat < 65536 then [c.toNat]
    else [55296 + (c.toNat - 65536) / 1024, 56320 + (c.toNat - 65536) % 1024])

/-- A Unicode scalar value: below U+110000 and not a surrogate. -/
def validScalar (u : Nat) : Prop := u < 1114112 ∧ ¬ (55296 ≤ u ∧ u < 57344)

instance (u : Nat) : Decidable (validScalar u) := by
  unfold validScalar; infer_instance

/-- UTF-16 encoding of one scalar value: one code unit below U+10000,
a surrogate pair above. -/
def scalarToUtf16 (u : Nat) : List Nat :=
  if u < 65536 then [u]
  else [55296 + (u - 65536) / 1024, 56320 + (u - 65536) % 1024]

/-- Strict UTF-16 decoding of a code-unit sequence into scalar values.
Fails (like `encodeURIComponent` throwing `URIError`) on a lone surrogate.
This is the code-point walk ECMA-262 Encode performs over a string. -/
def utf16DecodeList : List Nat → Option (List Nat)
  | [] => some []
  | c :: rest =>
    if c < 55296 ∨ 57344 ≤ c then (utf16DecodeList rest).map (fun us => c :: us)
    else if c < 56320 then
      match rest with
      | lo :: rest2 =>
        if 56320 ≤ lo ∧ lo < 57344 then
          (utf16DecodeList rest2).map
            (fun us => (65536 + (c - 55296) * 1024 + (lo - 56320)) :: us)
        else none
      | [] => none
    else none

/-- A JavaScript string is a valid Unicode string when its code units are
16-bit (true of every actual JavaScript string) and it is well-formed
UTF-16 (no lone surrogates). -/
def wellFormed16 (t : JSStr) : Prop :=
  (∀ c ∈ t, c < 65536) ∧ (utf16DecodeList t).isSome = true

instance (t : JSStr) : Decidable (wellFormed16 t) := by
  unfold wellFormed16; infer_instance

/-- UTF-8 encoding of one scalar value (1 to 4 bytes). -/
def utf8EncodeScalar (u : Nat) : List Nat :=
  if u < 128 then [u]
  else if u < 2048 then [192 + u / 64, 128 + u % 64]
  else if u < 65536 then [224 + u / 4096, 128 + u / 64 % 64, 128 + u % 64]
  else [240 + u / 262144, 128 + u / 4096 % 64, 128 + u / 64 % 64, 128 + u % 64]

/-- Strict UTF-8 decoding, one byte per step, following the WHATWG UTF-8
decode algorithm (which is what ECMA-262 Decode and `decodeURIComponent`
implement): the state is the number of continuation bytes still expected,
the value accumulated so far, and the allowed range for the next byte
(narrowed after an `E0`/`ED`/`F0`/`F4` lead byte to reject overlong forms,
surrogates and values above U+10FFFF).  Rejects a lead byte outside
`00..7F, C2..F4`, a continuation byte outside the allowed range, and a
truncated sequence at the end of input. -/
def utf8DecodeAux : Nat → Nat → Nat → Nat → List Nat → Option (List Nat)
  | 0, _, _, _, [] => some []
  | _ + 1, _, _, _, [] => none
  | 0, _, _, _, b :: rest =>
    if b < 128 then (utf8DecodeAux 0 0 128 191 rest).map (fun us => b :: us)
    else if 194 ≤ b ∧ b ≤ 223 then utf8DecodeAux 1 (b - 192) 128 191 rest
    else if 224 ≤ b ∧ b ≤ 239 then
      utf8DecodeAux 2 (b - 224) (if b = 224 then 160 else 128) (if b = 237 then 159 else 191) rest
    else if 240 ≤ b ∧ b ≤ 244 then
      utf8DecodeAux 3 (b - 240) (if b = 240 then 144 else 128) (if b = 244 then 143 else 191) rest
    else none
  | needed + 1, acc, lower, upper, b :: rest =>
    if lower ≤ b ∧ b ≤ upper then
      if needed = 0 then
        (utf8DecodeAux 0 0 128 191 rest).map (fun us => (acc * 64 + (b - 128)) :: us)
      else utf8DecodeAux needed (acc * 64 + (b - 128)) 128 191 rest
    else none

/-- Strict UTF-8 decoding of a byte sequence into scalar values. -/
def utf8DecodeList (bs : List Nat) : Option (List Nat) := utf8DecodeAux 0 0 128 191 bs

/-- Invariant on the `utf8DecodeAux` state characterising the states
reachable during decoding; it makes every emitted code point a valid
scalar value. -/
def utf8StateOK (needed acc lower upper : Nat) : Prop :=
  needed ≤ 3 ∧
  (needed = 0 → acc = 0 ∧ lower = 128 ∧ upper = 191) ∧
  (needed = 1 →
    2 ≤ acc ∧ acc ≤ 17407 ∧ ¬(864 ≤ acc ∧ acc ≤ 895) ∧ lower = 128 ∧ upper = 191) ∧
  (needed = 2 →
    (acc ≤ 15 ∧ (acc = 0 → lower = 160) ∧ (acc ≠ 0 → lower = 128) ∧
      (acc = 13 → upper = 159) ∧ (acc ≠ 13 → upper = 191)) ∨
    (16 ≤ acc ∧ acc ≤ 271 ∧ lower = 128 ∧ upper = 191)) ∧
  (needed = 3 →
    acc ≤ 4 ∧ (acc = 0 → lower = 144) ∧ (acc ≠ 0 → lower = 128) ∧
      (acc = 4 → upper = 143) ∧ (acc ≠ 4 → upper = 191))

/-- Uppercase hexadecimal digit (character code) of a value below 16. -/
def hexUpperCode (x : Nat) : Nat := if x < 10 then 48 + x else 55 + x

/-- Lowercase hexadecimal digit (character code) of a value below 16,
as produced by `Number.prototype.toString(16)`. -/
def hexLowerCode (x : Nat) : Nat := if x < 10 then 48 + x else 87 + x

/-- Value of a hexadecimal digit character, either case (as accepted by
`decodeURIComponent`). -/
def hexDigitVal (c : Nat) : Option Nat :=
  if 48 ≤ c ∧ c ≤ 57 then some (c - 48)
  else if 65 ≤ c ∧ c ≤ 70 then some (c - 55)
  else if 97 ≤ c ∧ c ≤ 102 then some (c - 87)
  else none

/-- Character class of the regular expression `[0-9A-F]` used on line 9 of
src/index.jsx (uppercase hex only). -/
def isHexUpper (c : Nat) : Prop := (48 ≤ c ∧ c ≤ 57) ∨ (65 ≤ c ∧ c ≤ 70)

instance (c : Nat) : Decidable (isHexUpper c) := by
  unfold isHexUpper; infer_instance

/-- Characters `encodeURIComponent` leaves unescaped
(ECMA-262 `uriUnescaped`): alphanumerics and `- _ . ! ~ * ' ( )`. -/
def uriUnreserved (u : Nat) : Prop :=
  (48 ≤ u ∧ u ≤ 57) ∨ (65 ≤ u ∧ u ≤ 90) ∨ (97 ≤ u ∧ u ≤ 122) ∨
  u = 45 ∨ u = 95 ∨ u = 46 ∨ u = 33 ∨ u = 126 ∨ u = 42 ∨ u = 39 ∨ u = 40 ∨ u = 41

instance (u : Nat) : Decidable (uriUnreserved u) := by
  unfold uriUnreserved; infer_instance

/-- Percent escape `%XX` (uppercase hex) of one byte, as emitted by
`encodeURIComponent`. -/
def percentEscapeUpper (b : Nat) : List Nat := [37, hexUpperCode (b / 16), hexUpperCode (b % 16)]

/-- `encodeURIComponent` applied to one scalar value: unreserved ASCII is
kept, everything else becomes percent escapes of its UTF-8 bytes. -/
def uriEscapeScalar (u : Nat) : List Nat :=
  if uriUnreserved u then [u] else (utf8EncodeScalar u).flatMap percentEscapeUpper

/-- Model of `encodeURIComponent` (ECMA-262 Encode): fails (URIError) on a
lone surrogate, otherwise escapes each scalar value. -/
def encodeURIComponentModel (t : JSStr) : Option (List Nat) :=
  (utf16DecodeList t).map (fun us => us.flatMap uriEscapeScalar)

/-- Numeric value of a hexadecimal digit character (0 elsewhere; only
applied to hex digits). -/
def hexVal (c : Nat) : Nat := (hexDigitVal c).getD 0

/-- Scanner state for the global regex replace of lines 9-12: nothing
pending, a pending `%`, or a pending `%` plus one uppercase hex digit.
A match can only start at a `%`, so at most two characters are pending. -/
inductive PctState where
  | s0
  | s1
  | s2 (h1 : Nat)

/-- Left-to-right scan of
`.replace(/%([0-9A-F]{2})/g, (m, p1) => String.fromCharCode('0x' + p1))`
(src/index.jsx lines 9-12): each `%XX` (uppercase hex) becomes the
character with code `XX`, everything else is kept; pending characters of
an incomplete candidate match are flushed when the match fails or the
input ends. -/
def replScan : PctState → List Nat → List Nat
  | PctState.s0, [] => []
  | PctState.s1, [] => [37]
  | PctState.s2 h1, [] => [37, h1]
  | PctState.s0, c :: rest =>
    if c = 37 then replScan PctState.s1 rest else c :: replScan PctState.s0 rest
  | PctState.s1, c :: rest =>
    if isHexUpper c then replScan (PctState.s2 c) rest
    else if c = 37 then 37 :: replScan PctState.s1 rest
    else 37 :: c :: replScan PctState.s0 rest
  | PctState.s2 h1, c :: rest =>
    if isHexUpper c then (hexVal h1 * 16 + hexVal c) :: replScan PctState.s0 rest
    else if c = 37 then 37 :: h1 :: replScan PctState.s1 rest
    else 37 :: h1 :: c :: replScan PctState.s0 rest

/-- The full regex replace of lines 9-12, starting with nothing pending. -/
def replToSolidBytes (s : List Nat) : List Nat := replScan PctState.s0 s

/-- Byte-level percent decoding used by the model of `decodeURIComponent`:
`%XX` (either hex case) becomes a byte, a bare character below 0x80 stands
for itself, anything else fails.  (`decodeURIComponent` would pass a bare
character at or above 0x80 through unchanged; `decodeText` only ever feeds
this function fully percent-escaped input, where the two agree.) -/
def uriDecodeBytes : List Nat → Option (List Nat)
  | [] => some []
  | c :: rest =>
    if c = 37 then
      match rest with
      | h1 :: h2 :: rest2 =>
        match hexDigitVal h1, hexDigitVal h2 with
        | some x, some y => (uriDecodeBytes rest2).map (fun bs => (16 * x + y) :: bs)
        | _, _ => none
      | _ => none
    else if c < 128 then (uriDecodeBytes rest).map (fun bs => c :: bs)
    else none

/-- Model of `decodeURIComponent` (ECMA-262 Decode) on percent-escaped
input: percent-decode to bytes, strict UTF-8 decode, re-emit UTF-16. -/
def decodeURIComponentModel (s : List Nat) : Option JSStr :=
  (uriDecodeBytes s).bind fun bytes =>
    (utf8DecodeList bytes).map (fun us => us.flatMap scalarToUtf16)

/-- Character of the base64 alphabet at index `i < 64`
(`A-Z a-z 0-9 + /`). -/
def b64chr (i : Nat) : Nat :=
  if i < 26 then 65 + i
  else if i < 52 then 71 + i
  else if i < 62 then i - 4
  else if i = 62 then 43 else 47

/-- Index of a base64-alphabet character, `none` for any other character. -/
def b64chrVal (c : Nat) : Option Nat :=
  if 65 ≤ c ∧ c ≤ 90 then some (c - 65)
  else if 97 ≤ c ∧ c ≤ 122 then some (c - 71)
  else if 48 ≤ c ∧ c ≤ 57 then some (c + 4)
  else if c = 43 then some 62
  else if c = 47 then some 63
  else none

/-- Membership in the base64 alphabet (`A-Z a-z 0-9 + /`). -/
def isB64Code (c : Nat) : Prop :=
  (65 ≤ c ∧ c ≤ 90) ∨ (97 ≤ c ∧ c ≤ 122) ∨ (48 ≤ c ∧ c ≤ 57) ∨ c = 43 ∨ c = 47

instance (c : Nat) : Decidable (isB64Code c) := by
  unfold isB64Code; infer_instance

/-- Base64 body of a byte sequence: four alphabet characters per three
bytes, two (resp. three) characters for a trailing one (resp. two) bytes,
without the `=` padding. -/
def b64body : List Nat → List Nat
  | [] => []
  | [a] => [b64chr (a / 4), b64chr (a % 4 * 16)]
  | [a, b] => [b64chr (a / 4), b64chr (a % 4 * 16 + b / 16), b64chr (b % 16 * 4)]
  | a :: b :: c :: rest =>
    b64chr (a / 4) :: b64chr (a % 4 * 16 + b / 16) :: b64chr (b % 16 * 4 + c / 64) ::
      b64chr (c % 64) :: b64body rest

/-- Number of `=` padding characters `btoa` appends for an input of the
given length. -/
def b64PadCount (n : Nat) : Nat := (3 - n % 3) % 3

/-- Model of `btoa`: fails (InvalidCharacterError) if any character code
exceeds 0xFF, otherwise base64 with `=` padding to a multiple of four. -/
def btoaModel (cs : List Nat) : Option (List Nat) :=
  if ∀ c ∈ cs, c < 256 then some (b64body cs ++ List.replicate (b64PadCount cs.length) 61)
  else none

/-- ASCII whitespace removed by forgiving-base64 decoding (`atob`). -/
def isB64Ws (c : Nat) : Bool := c = 9 || c = 10 || c = 12 || c = 13 || c = 32

/-- Forgiving-base64 step: remove one or two trailing `=`
(and no other character). -/
def stripEq2 (l : List Nat) : List Nat :=
  match l.reverse with
  | c1 :: c2 :: r =>
    if c1 = 61 then (if c2 = 61 then r.reverse else (c2 :: r).reverse) else l
  | [c1] => if c1 = 61 then [] else l
  | [] => l

/-- Map base64-alphabet characters to their sextet values, failing on the
first character outside the alphabet. -/
def sextetsOfCodes : List Nat → Option (List Nat)
  | [] => some []
  | c :: rest =>
    match b64chrVal c, sextetsOfCodes rest with
    | some s, some ss => some (s :: ss)
    | _, _ => none

/-- Reassemble bytes from sextets, four sextets to three bytes; a final
group of two (resp. three) sextets yields one (resp. two) bytes with the
leftover bits discarded, as forgiving-base64 does.  A single leftover
sextet cannot reach this function (length remainder 1 is rejected first). -/
def sextetsToBytes : List Nat → List Nat
  | s0 :: s1 :: s2 :: s3 :: rest =>
    (s0 * 4 + s1 / 16) :: (s1 % 16 * 16 + s2 / 4) :: (s2 % 4 * 64 + s3) :: sextetsToBytes rest
  | [s0, s1] => [s0 * 4 + s1 / 16]
  | [s0, s1, s2] => [s0 * 4 + s1 / 16, s1 % 16 * 16 + s2 / 4]
  | _ => []

/-- Model of `atob` (WHATWG forgiving-base64 decode): remove ASCII
whitespace; if the length is a multiple of four, strip up to two trailing
`=`; reject a length remainder of one and any character outside the
alphabet; decode sextets to bytes. -/
def atobModel (s : List Nat) : Option (List Nat) :=
  let s1 := s.filter (fun c => !isB64Ws c)
  let s2 := if s1.length % 4 = 0 then stripEq2 s1 else s1
  if s2.length % 4 = 1 then none
  else (sextetsOfCodes s2).map sextetsToBytes

/-- The `+` to `-` replacement of line 12 of src/index.jsx. -/
def plusToDash (c : Nat) : Nat := if c = 43 then 45 else c

/-- The `/` to `_` replacement of line 12 of src/index.jsx. -/
def slashToUnderscore (c : Nat) : Nat := if c = 47 then 95 else c

/-- The `-` to `+` replacement of line 21 of src/index.jsx. -/
def dashToPlus (c : Nat) : Nat := if c = 45 then 43 else c

/-- The `_` to `/` replacement of line 21 of src/index.jsx. -/
def underscoreToSlash (c : Nat) : Nat := if c = 95 then 47 else c

/-- The `.replace(/=+$/, '')` of line 12: drop every trailing `=`. -/
def dropTrailingEq (l : List Nat) : List Nat :=
  (l.reverse.dropWhile (fun c => c == 61)).reverse

/-- Percent escape with lowercase hex of one byte, as built on line 24 of
src/index.jsx by `'%' + ('00' + c.charCodeAt(0).toString(16)).slice(-2)`
(exact for the byte values `atob` produces). -/
def percentEscapeLower (b : Nat) : List Nat := [37, hexLowerCode (b / 16), hexLowerCode (b % 16)]

/-- `encodeText` (src/index.jsx lines 7-16):
`btoa(encodeURIComponent(str).replace(/%([0-9A-F]{2})/g, toSolidBytes))`
then `+`→`-`, `/`→`_`, strip trailing `=`; any exception yields `null`. -/
def encodeText (t : JSStr) : Option JSStr :=
  (encodeURIComponentModel t).bind fun esc =>
    (btoaModel (replToSolidBytes esc)).map fun b64 =>
      dropTrailingEq ((b64.map plusToDash).map slashToUnderscore)

/-- `decodeText` (src/index.jsx lines 19-29): `-`→`+`, `_`→`/`, re-pad
with `=` to a multiple of four, `atob`, percent-escape every output byte
and `decodeURIComponent`; any exception yields `null`. -/
def decodeText (tok : JSStr) : Option JSStr :=
  let base64 := (tok.map dashToPlus).map underscoreToSlash
  let padded := base64 ++ List.replicate ((4 - base64.length % 4) % 4) 61
  (atobModel padded).bind fun bytes =>
    decodeURIComponentModel (bytes.flatMap percentEscapeLower)

/-- Membership in the token alphabet `[A-Za-z0-9_-]`: a string matches
`^[A-Za-z0-9_-]*$` exactly when every character satisfies this. -/
def isTokenChar (c : Nat) : Prop :=
  (48 ≤ c ∧ c ≤ 57) ∨ (65 ≤ c ∧ c ≤ 90) ∨ (97 ≤ c ∧ c ≤ 122) ∨ c = 45 ∨ c = 95

instance (c : Nat) : Decidable (isTokenChar c) := by
  unfold isTokenChar; infer_instance

/-- Application mode (src/index.jsx line 64): authoring or viewing. -/
inductive Mode where
  | create
  | view
deriving DecidableEq

/-- Toast kind (`showToast`'s `type` argument). -/
inductive ToastType where
  | success
  | error
deriving DecidableEq

/-- A toast notification, as stored by `setToast({ message, type })`. -/
structure Toast where
  message : JSStr
  type : ToastType
deriving DecidableEq

/-- A history entry (src/index.jsx lines 131-136). -/
structure HistoryEntry where
  id : Nat
  preview : JSStr
  date : JSStr
  link : JSStr
deriving DecidableEq

/-- The application state: the `useState` fields of `App` that the core
logic reads or writes, plus the URL fragment (`window.location.hash`
without the leading `#`). -/
structure AppState where
  text : JSStr
  mode : Mode
  generatedLink : JSStr
  toast : Option Toast
  history : List HistoryEntry
  fragment : JSStr
deriving DecidableEq

/-- Toast message of src/index.jsx line 92. -/
def invalidLinkMsg : JSStr := jstr "Invalid or corrupted link"

/-- Toast message of src/index.jsx line 122. -/
def enterTextMsg : JSStr := jstr "Please enter some text first!"

/-- Toast message of src/index.jsx line 143. -/
def linkGeneratedMsg : JSStr := jstr "Link generated successfully!"

/-- ECMA-262 `String.prototype.trim` whitespace: WhiteSpace and
LineTerminator code points. -/
def jsWhitespace (c : Nat) : Bool :=
  [9, 10, 11, 12, 13, 32, 160, 5760, 8192, 8193, 8194, 8195, 8196, 8197, 8198,
    8199, 8200, 8201, 8202, 8232, 8233, 8239, 8287, 12288, 65279].contains c

/-- Model of `text.trim()`. -/
def jsTrim (t : JSStr) : JSStr :=
  ((t.dropWhile jsWhitespace).reverse.dropWhile jsWhitespace).reverse

/-- The history update of src/index.jsx line 138:
`[newHistoryItem, ...history].slice(0, 5)`. -/
def appendHistory (item : HistoryEntry) (history : List HistoryEntry) : List HistoryEntry :=
  (item :: history).take 5

/-- `handleGenerate` (src/index.jsx lines 120-144).  `origin`, `path`,
`now` and `dateStr` stand for `window.location.origin`,
`window.location.pathname`, `Date.now()` and
`new Date().toLocaleDateString()`.  Note the JavaScript template literal
stringifies a `null` result of `encodeText` as the four characters
`null`. -/
def handleGenerate (origin path : JSStr) (now : Nat) (dateStr : JSStr) (st : AppState) : AppState :=
  if jsTrim st.text = [] then
    { st with toast := some { message := enterTextMsg, type := ToastType.error } }
  else
    let encoded := encodeText st.text
    let link := origin ++ path ++ [35] ++ (match encoded with | some tok => tok | none => jstr "null")
    let newHistoryItem : HistoryEntry :=
      { id := now
        preview := st.text.take 30 ++ (if 30 < st.text.length then jstr "..." else [])
        date := dateStr
        link := link }
    { st with
      generatedLink := link
      history := appendHistory newHistoryItem st.history
      toast := some { message := linkGeneratedMsg, type := ToastType.success } }

/-- The failure branch of `handleHashChange` (src/index.jsx lines 91-95):
error toast, clear the fragment, mode `create`. -/
def hashErrorUpdate (st : AppState) : AppState :=
  { st with
    toast := some { message := invalidLinkMsg, type := ToastType.error }
    fragment := []
    mode := Mode.create }

/-- One invocation of `handleHashChange` (src/index.jsx lines 84-100).
`if (decoded)` is JavaScript truthiness: `null` and the empty string both
take the failure branch. -/
def handleHashChange (st : AppState) : AppState :=
  if st.fragment = [] then { st with mode := Mode.create, text := [] }
  else
    match decodeText st.fragment with
    | some d => if d = [] then hashErrorUpdate st else { st with text := d, mode := Mode.view }
    | none => hashErrorUpdate st

/-- A fragment-change observation with its follow-up: assigning
`window.location.hash = ''` on the failure branch changes the fragment and
fires a further `hashchange` event, which runs `handleHashChange` again
(the listener registered on line 103).  One follow-up run reaches a fixed
point, because only the failure branch writes the fragment and it writes
the empty fragment. -/
def processHashChange (st : AppState) : AppState :=
  let st1 := handleHashChange st
  if st1.fragment = st.fragment then st1 else handleHashChange st1

/-- JSON values, as produced by `JSON.parse` (numbers kept as lexemes:
no claim depends on numeric value). -/
inductive Json where
  | null
  | bool (b : Bool)
  | num (lexeme : List Nat)
  | str (s : JSStr)
  | arr (items : List Json)
  | obj (fields : List (JSStr × Json))

/-- JSON insignificant whitespace. -/
def jsonWsB (c : Nat) : Bool := c = 32 || c = 9 || c = 10 || c = 13

/-- Skip JSON whitespace. -/
def jsonSkipWs (s : List Nat) : List Nat := s.dropWhile jsonWsB

/-- Decimal digit character. -/
def isJsonDigit (c : Nat) : Bool := decide (48 ≤ c ∧ c ≤ 57)

/-- Four hexadecimal digits of a `\\u` escape. -/
def parseHex4 : List Nat → Option (Nat × List Nat)
  | a :: b :: c :: d :: rest =>
    match hexDigitVal a, hexDigitVal b, hexDigitVal c, hexDigitVal d with
    | some x, some y, some z, some w => some (((x * 16 + y) * 16 + z) * 16 + w, rest)
    | _, _, _, _ => none
  | _ => none

/-- JSON string body after the opening quote; yields the code units and
the remaining input. -/
def parseJsonStringRest : Nat → List Nat → Option (JSStr × List Nat)
  | 0, _ => none
  | _, [] => none
  | fuel + 1, c :: rest =>
    if c = 34 then some ([], rest)
    else if c = 92 then
      match rest with
      | e :: rest2 =>
        if e = 34 ∨ e = 92 ∨ e = 47 then
          (parseJsonStringRest fuel rest2).map (fun p => (e :: p.1, p.2))
        else if e = 98 then (parseJsonStringRest fuel rest2).map (fun p => (8 :: p.1, p.2))
        else if e = 102 then (parseJsonStringRest fuel rest2).map (fun p => (12 :: p.1, p.2))
        else if e = 110 then (parseJsonStringRest fuel rest2).map (fun p => (10 :: p.1, p.2))
        else if e = 114 then (parseJsonStringRest fuel rest2).map (fun p => (13 :: p.1, p.2))
        else if e = 116 then (parseJsonStringRest fuel rest2).map (fun p => (9 :: p.1, p.2))
        else if e = 117 then
          match parseHex4 rest2 with
          | some (u, rest3) => (parseJsonStringRest fuel rest3).map (fun p => (u :: p.1, p.2))
          | none => none
        else none
      | [] => none
    else if 32 ≤ c then (parseJsonStringRest fuel rest).map (fun p => (c :: p.1, p.2))
    else none

/-- Optional fraction part of a JSON number, appended to the lexeme. -/
def parseJsonFrac (acc : List Nat) (s : List Nat) : Option (List Nat × List Nat) :=
  match s with
  | 46 :: rest =>
    match rest.takeWhile isJsonDigit with
    | [] => none
    | ds => some (acc ++ 46 :: ds, rest.dropWhile isJsonDigit)
  | _ => some (acc, s)

/-- Optional exponent part of a JSON number, appended to the lexeme. -/
def parseJsonExp (acc : List Nat) (s : List Nat) : Option (List Nat × List Nat) :=
  match s with
  | e :: rest =>
    if e = 101 ∨ e = 69 then
      match (match rest with | 43 :: r => (([43] : List Nat), r) | 45 :: r => ([45], r) | _ => ([], rest)) with
      | (sgn, rest2) =>
        match rest2.takeWhile isJsonDigit with
        | [] => none
        | ds => some (acc ++ e :: (sgn ++ ds), rest2.dropWhile isJsonDigit)
    else some (acc, e :: rest)
  | [] => some (acc, [])

/-- JSON number lexeme: `-? (0 | [1-9][0-9]*) frac? exp?`. -/
def parseJsonNumber (s : List Nat) : Option (List Nat × List Nat) :=
  match (match s with | 45 :: r => (([45] : List Nat), r) | _ => ([], s)) with
  | (neg, s1) =>
    match s1 with
    | c :: rest =>
      if c = 48 then
        (parseJsonFrac (neg ++ [48]) rest).bind fun p => parseJsonExp p.1 p.2
      else if isJsonDigit c then
        (parseJsonFrac (neg ++ c :: rest.takeWhile isJsonDigit) (rest.dropWhile isJsonDigit)).bind
          fun p => parseJsonExp p.1 p.2
      else none
    | [] => none

mutual

/-- JSON value parser (strict `JSON.parse` grammar), fuelled. -/
def parseJsonValue : Nat → List Nat → Option (Json × List Nat)
  | 0, _ => none
  | fuel + 1, s0 =>
    match jsonSkipWs s0 with
    | [] => none
    | c :: rest =>
      if c = 34 then
        (parseJsonStringRest (rest.length + 1) rest).map (fun p => (Json.str p.1, p.2))
      else if c = 91 then parseJsonArrayRest fuel rest
      else if c = 123 then parseJsonObjectRest fuel rest
      else if c = 116 then
        match rest with
        | 114 :: 117 :: 101 :: rest2 => some (Json.bool true, rest2)
        | _ => none
      else if c = 102 then
        match rest with
        | 97 :: 108 :: 115 :: 101 :: rest2 => some (Json.bool false, rest2)
        | _ => none
      else if c = 110 then
        match rest with
        | 117 :: 108 :: 108 :: rest2 => some (Json.null, rest2)
        | _ => none
      else (parseJsonNumber (c :: rest)).map (fun p => (Json.num p.1, p.2))

/-- After `[`: empty array or first element then the element loop. -/
def parseJsonArrayRest : Nat → List Nat → Option (Json × List Nat)
  | 0, _ => none
  | fuel + 1, s =>
    match jsonSkipWs s with
    | 93 :: rest => some (Json.arr [], rest)
    | s1 => (parseJsonValue fuel s1).bind fun p => parseJsonArrayLoop fuel [p.1] p.2

/-- Array elements: `, value` repeated until `]`. -/
def parseJsonArrayLoop : Nat → List Json → List Nat → Option (Json × List Nat)
  | 0, _, _ => none
  | fuel + 1, acc, s =>
    match jsonSkipWs s with
    | 44 :: rest => (parseJsonValue fuel rest).bind fun p => parseJsonArrayLoop fuel (acc ++ [p.1]) p.2
    | 93 :: rest => some (Json.arr acc, rest)
    | _ => none

/-- After `{`: empty object or first key then the member parser. -/
def parseJsonObjectRest : Nat → List Nat → Option (Json × List Nat)
  | 0, _ => none
  | fuel + 1, s =>
    match jsonSkipWs s with
    | 125 :: rest => some (Json.obj [], rest)
    | 34 :: rest =>
      (parseJsonStringRest (rest.length + 1) rest).bind fun p =>
        parseJsonMember fuel p.1 p.2 []
    | _ => none

/-- One `key : value` member, then the member loop. -/
def parseJsonMember : Nat → JSStr → List Nat → List (JSStr × Json) → Option (Json × List Nat)
  | 0, _, _, _ => none
  | fuel + 1, k, s, acc =>
    match jsonSkipWs s with
    | 58 :: rest => (parseJsonValue fuel rest).bind fun p => parseJsonObjectLoop fuel (acc ++ [(k, p.1)]) p.2
    | _ => none

/-- Object members: `, "key" : value` repeated until `}`. -/
def parseJsonObjectLoop : Nat → List (JSStr × Json) → List Nat → Option (Json × List Nat)
  | 0, _, _ => none
  | fuel + 1, acc, s =>
    match jsonSkipWs s with
    | 125 :: rest => some (Json.obj acc, rest)
    | 44 :: rest =>
      match jsonSkipWs rest with
      | 34 :: rest2 =>
        (parseJsonStringRest (rest2.length + 1) rest2).bind fun p =>
          parseJsonMember fuel p.1 p.2 acc
      | _ => none
    | _ => none

end

/-- Model of `JSON.parse`: parse one value and require only whitespace to
remain; `none` is a thrown `SyntaxError`.  The fuel bounds the recursion
depth and is ample: every fuel-consuming call site first consumes at least
one input character. -/
def jsonParse (s : JSStr) : Option Json :=
  (parseJsonValue (2 * s.length + 2) s).bind fun p =>
    if jsonSkipWs p.2 = [] then some p.1 else none

/-- Outcome of the history-loading effect: either a value installed by
`setHistory` (or the untouched initial `[]`), or an uncaught exception. -/
inductive LoadResult where
  | history (v : Json)
  | thrown

/-- The history-load effect (src/index.jsx lines 80-81):
`const savedHistory = localStorage.getItem('textshare_history');
if (savedHistory) setHistory(JSON.parse(savedHistory));`
`stored` is what `getItem` returns (`none` for absent).  A present but
empty string is falsy and is skipped; otherwise `JSON.parse` runs with no
exception handler, so a parse failure is an uncaught `SyntaxError`. -/
def loadHistoryModel (stored : Option JSStr) : LoadResult :=
  match stored with
  | none => LoadResult.history (Json.arr [])
  | some s =>
    if s = [] then LoadResult.history (Json.arr [])
    else
      match jsonParse s with
      | some v => LoadResult.history v
      | none => LoadResult.thrown

theorem scalarToUtf16_pair (c lo : Nat) (h1 : 55296 ≤ c) (h2 : c < 56320)
    (h3 : 56320 ≤ lo) (h4 : lo < 57344) :
    scalarToUtf16 (65536 + (c - 55296) * 1024 + (lo - 56320)) = [c, lo] := by
  rw [scalarToUtf16, if_neg (by omega)]
  have e1 : 55296 + (65536 + (c - 55296) * 1024 + (lo - 56320) - 65536) / 1024 = c := by omega
  have e2 : 56320 + (65536 + (c - 55296) * 1024 + (lo - 56320) - 65536) % 1024 = lo := by omega
  rw [e1, e2]

theorem utf16Decode_spec : ∀ (t : List Nat), (∀ c ∈ t, c < 65536) → ∀ us,
    utf16DecodeList t = some us →
    (∀ u ∈ us, validScalar u) ∧ us.flatMap scalarToUtf16 = t := by
  intro t
  induction t using utf16DecodeList.induct with
  | case1 =>
    intro _ us h
    rw [utf16DecodeList.eq_def] at h
    simp only [Option.some.injEq] at h
    subst h
    simp
  | case2 c rest hc ih =>
    intro h16 us h
    rw [utf16DecodeList.eq_def] at h
    simp only [if_pos hc, Option.map_eq_some'] at h
    obtain ⟨us2, h2, rfl⟩ := h
    obtain ⟨hv, he⟩ := ih (fun x hx => h16 x (List.mem_cons_of_mem c hx)) us2 h2
    have hcb : c < 65536 := h16 c (List.mem_cons_self c rest)
    refine ⟨?_, ?_⟩
    · intro u hu
      rcases List.mem_cons.mp hu with h | h
      · refine ⟨by omega, by omega⟩
      · exact hv u h
    · rw [List.flatMap_cons, he, scalarToUtf16, if_pos (by omega)]
      simp
  | case3 c hc1 hc2 lo rest2 hlo ih =>
    intro h16 us h
    rw [utf16DecodeList.eq_def] at h
    simp only [if_neg hc1, if_pos hc2, if_pos hlo, Option.map_eq_some'] at h
    obtain ⟨us2, h2, rfl⟩ := h
    obtain ⟨hv, he⟩ := ih (fun x hx => h16 x (by simp [hx])) us2 h2
    refine ⟨?_, ?_⟩
    · intro u hu
      rcases List.mem_cons.mp hu with h | h
      · refine ⟨by omega, by omega⟩
      · exact hv u h
    · rw [List.flatMap_cons, he, scalarToUtf16_pair c lo (by omega) hc2 hlo.1 hlo.2]
      simp
  | case4 c hc1 hc2 lo rest2 hlo =>
    intro _ us h
    rw [utf16DecodeList.eq_def] at h
    simp only [if_neg hc1, if_pos hc2, if_neg hlo] at h
    simp at h
  | case5 c hc1 hc2 =>
    intro _ us h
    rw [utf16DecodeList.eq_def] at h
    simp only [if_neg hc1, if_pos hc2] at h
    simp at h
  | case6 c rest hc1 hc2 =>
    intro _ us h
    rw [utf16DecodeList.eq_def] at h
    simp only [if_neg hc1, if_neg hc2] at h
    simp at h

theorem utf16DecodeList_cons_bmp (c : Nat) (l : List Nat) (h : c < 55296 ∨ 57344 ≤ c) :
    utf16DecodeList (c :: l) = (utf16DecodeList l).map (fun us => c :: us) := by
  rw [utf16DecodeList.eq_def]
  simp only [if_pos h]

theorem utf16DecodeList_cons_pair (c lo : Nat) (l : List Nat)
    (h1 : ¬(c < 55296 ∨ 57344 ≤ c)) (h2 : c < 56320) (h3 : 56320 ≤ lo ∧ lo < 57344) :
    utf16DecodeList (c :: lo :: l) =
      (utf16DecodeList l).map (fun us => (65536 + (c - 55296) * 1024 + (lo - 56320)) :: us) := by
  rw [utf16DecodeList.eq_def]
  simp only [if_neg h1, if_pos h2, if_pos h3]

theorem utf16Encode_decode : ∀ (us : List Nat), (∀ u ∈ us, validScalar u) →
    utf16DecodeList (us.flatMap scalarToUtf16) = some us := by
  intro us
  induction us with
  | nil => intro _; simp [utf16DecodeList]
  | cons u rest ih =>
    intro hv
    have hu : validScalar u := hv u (List.mem_cons_self u rest)
    have hrest := ih (fun x hx => hv x (List.mem_cons_of_mem u hx))
    obtain ⟨hu1, hu2⟩ := hu
    rw [List.flatMap_cons, scalarToUtf16]
    by_cases h1 : u < 65536
    · rw [if_pos h1]
      simp only [List.cons_append, List.nil_append]
      rw [utf16DecodeList_cons_bmp u _ (by omega), hrest, Option.map_some']
    · rw [if_neg h1]
      simp only [List.cons_append, List.nil_append]
      rw [utf16DecodeList_cons_pair _ _ _ (by omega) (by omega) (by omega), hrest, Option.map_some']
      have e : 65536 + (55296 + (u - 65536) / 1024 - 55296) * 1024 +
          (56320 + (u - 65536) % 1024 - 56320) = u := by omega
      rw [e]

theorem utf8Aux_lead1 (b : Nat) (l : List Nat) (h : b < 128) :
    utf8DecodeAux 0 0 128 191 (b :: l) = (utf8DecodeAux 0 0 128 191 l).map (fun us => b :: us) := by
  simp only [utf8DecodeAux, if_pos h]

theorem utf8Aux_lead2 (b : Nat) (l : List Nat) (h : 194 ≤ b ∧ b ≤ 223) :
    utf8DecodeAux 0 0 128 191 (b :: l) = utf8DecodeAux 1 (b - 192) 128 191 l := by
  simp only [utf8DecodeAux, if_neg (by omega : ¬ b < 128), if_pos h]

theorem utf8Aux_lead3 (b : Nat) (l : List Nat) (h : 224 ≤ b ∧ b ≤ 239) :
    utf8DecodeAux 0 0 128 191 (b :: l) =
      utf8DecodeAux 2 (b - 224) (if b = 224 then 160 else 128) (if b = 237 then 159 else 191) l := by
  simp only [utf8DecodeAux, if_neg (by omega : ¬ b < 128),
    if_neg (by omega : ¬ (194 ≤ b ∧ b ≤ 223)), if_pos h]

theorem utf8Aux_lead4 (b : Nat) (l : List Nat) (h : 240 ≤ b ∧ b ≤ 244) :
    utf8DecodeAux 0 0 128 191 (b :: l) =
      utf8DecodeAux 3 (b - 240) (if b = 240 then 144 else 128) (if b = 244 then 143 else 191) l := by
  simp only [utf8DecodeAux, if_neg (by omega : ¬ b < 128),
    if_neg (by omega : ¬ (194 ≤ b ∧ b ≤ 223)), if_neg (by omega : ¬ (224 ≤ b ∧ b ≤ 239)), if_pos h]

theorem utf8Aux_cont_last (acc lower upper b : Nat) (l : List Nat) (h : lower ≤ b ∧ b ≤ upper) :
    utf8DecodeAux 1 acc lower upper (b :: l) =
      (utf8DecodeAux 0 0 128 191 l).map (fun us => (acc * 64 + (b - 128)) :: us) := by
  simp only [utf8DecodeAux, if_pos h]
  simp

theorem utf8Aux_cont_mid (n acc lower upper b : Nat) (l : List Nat) (h : lower ≤ b ∧ b ≤ upper) :
    utf8DecodeAux (n + 2) acc lower upper (b :: l) =
      utf8DecodeAux (n + 1) (acc * 64 + (b - 128)) 128 191 l := by
  simp only [utf8DecodeAux, if_pos h]
  simp

theorem utf8EncodeScalar_lt (u : Nat) (hu : validScalar u) :
    ∀ b ∈ utf8EncodeScalar u, b < 256 := by
  obtain ⟨h1, _⟩ := hu
  intro b hb
  rw [utf8EncodeScalar] at hb
  by_cases c1 : u < 128
  · rw [if_pos c1] at hb; simp at hb; omega
  · rw [if_neg c1] at hb
    by_cases c2 : u < 2048
    · rw [if_pos c2] at hb; simp at hb; rcases hb with h | h <;> omega
    · rw [if_neg c2] at hb
      by_cases c3 : u < 65536
      · rw [if_pos c3] at hb; simp at hb; rcases hb with h | h | h <;> omega
      · rw [if_neg c3] at hb; simp at hb; rcases hb with h | h | h | h <;> omega

theorem utf8_roundtrip_scalar (u : Nat) (hu : validScalar u) (l : List Nat) :
    utf8DecodeList (utf8EncodeScalar u ++ l) =
      (utf8DecodeList l).map (fun us => u :: us) := by
  obtain ⟨h1, h2⟩ := hu
  rw [utf8DecodeList, utf8DecodeList, utf8EncodeScalar]
  by_cases c1 : u < 128
  · rw [if_pos c1]
    simp only [List.cons_append, List.nil_append]
    rw [utf8Aux_lead1 u _ c1]
  · rw [if_neg c1]
    by_cases c2 : u < 2048
    · rw [if_pos c2]
      simp only [List.cons_append, List.nil_append]
      rw [utf8Aux_lead2 _ _ (by omega), utf8Aux_cont_last _ _ _ _ _ (by omega)]
      have e : (192 + u / 64 - 192) * 64 + (128 + u % 64 - 128) = u := by omega
      rw [e]
    · rw [if_neg c2]
      by_cases c3 : u < 65536
      · rw [if_pos c3]
        simp only [List.cons_append, List.nil_append]
        rw [utf8Aux_lead3 _ _ (by omega)]
        rw [utf8Aux_cont_mid _ _ _ _ _ _ (by constructor <;> (split <;> omega))]
        rw [utf8Aux_cont_last _ _ _ _ _ (by omega)]
        have e : ((224 + u / 4096 - 224) * 64 + (128 + u / 64 % 64 - 128)) * 64 +
            (128 + u % 64 - 128) = u := by omega
        rw [e]
      · rw [if_neg c3]
        simp only [List.cons_append, List.nil_append]
        rw [utf8Aux_lead4 _ _ (by omega)]
        rw [utf8Aux_cont_mid _ _ _ _ _ _ (by constructor <;> (split <;> omega))]
        rw [utf8Aux_cont_mid _ _ _ _ _ _ (by omega)]
        rw [utf8Aux_cont_last _ _ _ _ _ (by omega)]
        have e : (((240 + u / 262144 - 240) * 64 + (128 + u / 4096 % 64 - 128)) * 64 +
            (128 + u / 64 % 64 - 128)) * 64 + (128 + u % 64 - 128) = u := by omega
        rw [e]

theorem utf8_roundtrip_list : ∀ (us : List Nat), (∀ u ∈ us, validScalar u) →
    utf8DecodeList (us.flatMap utf8EncodeScalar) = some us := by
  intro us
  induction us with
  | nil => intro _; rw [List.flatMap_nil]; rfl
  | cons u rest ih =>
    intro hv
    rw [List.flatMap_cons,
      utf8_roundtrip_scalar u (hv u (List.mem_cons_self u rest)) _,
      ih (fun x hx => hv x (List.mem_cons_of_mem u hx)), Option.map_some']

theorem hexUpper_isHexUpper : ∀ x < 16, isHexUpper (hexUpperCode x) := by decide

theorem hexVal_hexUpper : ∀ x < 16, hexVal (hexUpperCode x) = x := by decide

theorem hexDigitVal_hexLower : ∀ x < 16, hexDigitVal (hexLowerCode x) = some x := by decide

theorem replScan_escape : ∀ (bs rest : List Nat), (∀ b ∈ bs, b < 256) →
    replScan PctState.s0 (bs.flatMap percentEscapeUpper ++ rest) =
      bs ++ replScan PctState.s0 rest := by
  intro bs
  induction bs with
  | nil => intro rest _; simp
  | cons b tl ih =>
    intro rest h
    have hb : b < 256 := h b (List.mem_cons_self b tl)
    rw [List.flatMap_cons, List.append_assoc, percentEscapeUpper]
    simp only [List.cons_append, List.nil_append]
    rw [replScan, if_pos rfl]
    rw [replScan, if_pos (hexUpper_isHexUpper (b / 16) (by omega))]
    rw [replScan, if_pos (hexUpper_isHexUpper (b % 16) (by omega))]
    rw [hexVal_hexUpper (b / 16) (by omega), hexVal_hexUpper (b % 16) (by omega)]
    rw [ih rest (fun x hx => h x (List.mem_cons_of_mem b hx))]
    have e : b / 16 * 16 + b % 16 = b := by omega
    rw [e]

theorem uriUnreserved_ascii (u : Nat) (h : uriUnreserved u) : u < 128 ∧ u ≠ 37 := by
  unfold uriUnreserved at h
  omega

theorem replScan_uriEscape : ∀ (us rest : List Nat), (∀ u ∈ us, validScalar u) →
    replScan PctState.s0 (us.flatMap uriEscapeScalar ++ rest) =
      us.flatMap utf8EncodeScalar ++ replScan PctState.s0 rest := by
  intro us
  induction us with
  | nil => intro rest _; simp
  | cons u tl ih =>
    intro rest hv
    have hu : validScalar u := hv u (List.mem_cons_self u tl)
    have htl := fun x hx => hv x (List.mem_cons_of_mem u hx)
    rw [List.flatMap_cons, List.flatMap_cons, List.append_assoc, List.append_assoc, uriEscapeScalar]
    by_cases hr : uriUnreserved u
    · rw [if_pos hr]
      obtain ⟨ha, hp⟩ := uriUnreserved_ascii u hr
      rw [utf8EncodeScalar, if_pos ha]
      simp only [List.cons_append, List.nil_append]
      rw [replScan, if_neg hp, ih rest htl]
    · rw [if_neg hr]
      rw [replScan_escape _ _ (utf8EncodeScalar_lt u hu), ih rest htl]

theorem replToSolidBytes_uriEscape (us : List Nat) (hv : ∀ u ∈ us, validScalar u) :
    replToSolidBytes (us.flatMap uriEscapeScalar) = us.flatMap utf8EncodeScalar := by
  rw [replToSolidBytes]
  have := replScan_uriEscape us [] hv
  simpa [replScan] using this

theorem uriDecodeBytes_escape : ∀ (bs : List Nat), (∀ b ∈ bs, b < 256) →
    uriDecodeBytes (bs.flatMap percentEscapeLower) = some bs := by
  intro bs
  induction bs with
  | nil => intro _; rfl
  | cons b tl ih =>
    intro h
    have hb : b < 256 := h b (List.mem_cons_self b tl)
    rw [List.flatMap_cons, percentEscapeLower]
    simp only [List.cons_append, List.nil_append]
    rw [uriDecodeBytes.eq_def]
    simp only [if_pos rfl]
    rw [hexDigitVal_hexLower (b / 16) (by omega), hexDigitVal_hexLower (b % 16) (by omega)]
    simp only
    rw [ih (fun x hx => h x (List.mem_cons_of_mem b hx)), Option.map_some']
    have e : 16 * (b / 16) + b % 16 = b := by omega
    rw [e]
    simp

theorem b64chrVal_chr : ∀ i < 64, b64chrVal (b64chr i) = some i := by decide

theorem b64chr_isCode : ∀ i < 64, isB64Code (b64chr i) := by decide

theorem b64chr_notWs : ∀ i < 64, isB64Ws (b64chr i) = false := by decide

theorem b64chr_repl_ne61 : ∀ i < 64, slashToUnderscore (plusToDash (b64chr i)) ≠ 61 := by decide

theorem b64chr_repl_roundtrip : ∀ i < 64,
    underscoreToSlash (dashToPlus (slashToUnderscore (plusToDash (b64chr i)))) = b64chr i := by
  decide

theorem b64body_mem : ∀ (bs : List Nat), (∀ b ∈ bs, b < 256) →
    ∀ c ∈ b64body bs, ∃ i, i < 64 ∧ c = b64chr i := by
  intro bs
  induction bs using b64body.induct with
  | case1 => intro _ c hc; simp [b64body] at hc
  | case2 a =>
    intro h c hc
    have ha : a < 256 := h a (by simp)
    simp only [b64body, List.mem_cons, List.not_mem_nil, or_false] at hc
    rcases hc with hc | hc
    · exact ⟨a / 4, by omega, hc⟩
    · exact ⟨a % 4 * 16, by omega, hc⟩
  | case3 a b =>
    intro h c hc
    have ha : a < 256 := h a (by simp)
    have hb : b < 256 := h b (by simp)
    simp only [b64body, List.mem_cons, List.not_mem_nil, or_false] at hc
    rcases hc with hc | hc | hc
    · exact ⟨a / 4, by omega, hc⟩
    · exact ⟨a % 4 * 16 + b / 16, by omega, hc⟩
    · exact ⟨b % 16 * 4, by omega, hc⟩
  | case4 a b c rest ih =>
    intro h x hx
    have ha : a < 256 := h a (by simp)
    have hb : b < 256 := h b (by simp)
    have hc : c < 256 := h c (by simp)
    simp only [b64body, List.mem_cons] at hx
    rcases hx with hx | hx | hx | hx | hx
    · exact ⟨a / 4, by omega, hx⟩
    · exact ⟨a % 4 * 16 + b / 16, by omega, hx⟩
    · exact ⟨b % 16 * 4 + c / 64, by omega, hx⟩
    · exact ⟨c % 64, by omega, hx⟩
    · exact ih (fun y hy => h y (by simp [hy])) x hx

theorem b64body_length : ∀ (bs : List Nat),
    (b64body bs).length =
      bs.length / 3 * 4 + (if bs.length % 3 = 0 then 0 else bs.length % 3 + 1) := by
  intro bs
  induction bs using b64body.induct with
  | case1 => rfl
  | case2 a => simp [b64body]
  | case3 a b => simp [b64body]
  | case4 a b c rest ih =>
    rw [b64body]
    simp only [List.length_cons, ih]
    split_ifs <;> omega

theorem sextets_b64body : ∀ (bs : List Nat), (∀ b ∈ bs, b < 256) →
    ∃ ss, sextetsOfCodes (b64body bs) = some ss ∧ sextetsToBytes ss = bs := by
  intro bs
  induction bs using b64body.induct with
  | case1 => intro _; exact ⟨[], rfl, rfl⟩
  | case2 a =>
    intro h
    have ha : a < 256 := h a (by simp)
    refine ⟨[a / 4, a % 4 * 16], ?_, ?_⟩
    · rw [b64body]
      rw [sextetsOfCodes, b64chrVal_chr (a / 4) (by omega)]
      rw [sextetsOfCodes, b64chrVal_chr (a % 4 * 16) (by omega)]
      rfl
    · rw [sextetsToBytes]
      have e : a / 4 * 4 + a % 4 * 16 / 16 = a := by omega
      rw [e]
  | case3 a b =>
    intro h
    have ha : a < 256 := h a (by simp)
    have hb : b < 256 := h b (by simp)
    refine ⟨[a / 4, a % 4 * 16 + b / 16, b % 16 * 4], ?_, ?_⟩
    · rw [b64body]
      rw [sextetsOfCodes, b64chrVal_chr (a / 4) (by omega)]
      rw [sextetsOfCodes, b64chrVal_chr (a % 4 * 16 + b / 16) (by omega)]
      rw [sextetsOfCodes, b64chrVal_chr (b % 16 * 4) (by omega)]
      rfl
    · rw [sextetsToBytes]
      have e1 : a / 4 * 4 + (a % 4 * 16 + b / 16) / 16 = a := by omega
      have e2 : (a % 4 * 16 + b / 16) % 16 * 16 + b % 16 * 4 / 4 = b := by omega
      rw [e1, e2]
  | case4 a b c rest ih =>
    intro h
    have ha : a < 256 := h a (by simp)
    have hb : b < 256 := h b (by simp)
    have hc : c < 256 := h c (by simp)
    obtain ⟨ss, hss, hbytes⟩ := ih (fun y hy => h y (by simp [hy]))
    refine ⟨a / 4 :: (a % 4 * 16 + b / 16) :: (b % 16 * 4 + c / 64) :: c % 64 :: ss, ?_, ?_⟩
    · rw [b64body]
      rw [sextetsOfCodes, b64chrVal_chr (a / 4) (by omega)]
      rw [sextetsOfCodes, b64chrVal_chr (a % 4 * 16 + b / 16) (by omega)]
      rw [sextetsOfCodes, b64chrVal_chr (b % 16 * 4 + c / 64) (by omega)]
      rw [sextetsOfCodes, b64chrVal_chr (c % 64) (by omega)]
      rw [hss]
    · rw [sextetsToBytes, hbytes]
      have e1 : a / 4 * 4 + (a % 4 * 16 + b / 16) / 16 = a := by omega
      have e2 : (a % 4 * 16 + b / 16) % 16 * 16 + (b % 16 * 4 + c / 64) / 4 = b := by omega
      have e3 : (b % 16 * 4 + c / 64) % 4 * 64 + c % 64 = c := by omega
      rw [e1, e2, e3]

theorem dropWhile_replicate_append (p : Nat → Bool) (a : Nat) (hp : p a = true) :
    ∀ (k : Nat) (l : List Nat), List.dropWhile p (List.replicate k a ++ l) = List.dropWhile p l := by
  intro k
  induction k with
  | zero => intro l; simp
  | succ n ih =>
    intro l
    rw [List.replicate_succ, List.cons_append, List.dropWhile_cons, if_pos hp, ih]

theorem dropWhile_eq_self_of_ne (p : Nat → Bool) (l : List Nat)
    (h : ∀ c ∈ l, p c = false) : List.dropWhile p l = l := by
  cases l with
  | nil => rfl
  | cons c rest =>
    rw [List.dropWhile_cons, if_neg (by rw [h c (by simp)]; simp)]

theorem dropTrailingEq_spec (X : List Nat) (k : Nat) (hX : ∀ c ∈ X, c ≠ 61) :
    dropTrailingEq (X ++ List.replicate k 61) = X := by
  rw [dropTrailingEq, List.reverse_append, List.reverse_replicate]
  rw [dropWhile_replicate_append _ _ (by simp) k X.reverse]
  rw [dropWhile_eq_self_of_ne _ _ (fun c hc => by
    have : c ∈ X := List.mem_reverse.mp hc
    have := hX c this
    simp [this])]
  exact List.reverse_reverse X

theorem stripEq2_spec (X : List Nat) (k : Nat) (hX : ∀ c ∈ X, c ≠ 61) (hk : k ≤ 2) :
    stripEq2 (X ++ List.replicate k 61) = X := by
  interval_cases k
  · rw [List.replicate, List.append_nil, stripEq2]
    rcases hrev : X.reverse with _ | ⟨c1, rest⟩
    · rfl
    · have hc1 : c1 ≠ 61 := hX c1 (List.mem_reverse.mp (by rw [hrev]; simp))
      rcases rest with _ | ⟨c2, r⟩ <;> simp [hc1]
  · have hrev : (X ++ List.replicate 1 61).reverse = 61 :: X.reverse := by
      rw [List.reverse_append]; simp
    rw [stripEq2, hrev]
    rcases hrev2 : X.reverse with _ | ⟨c2, r⟩
    · rw [List.reverse_eq_nil_iff] at hrev2
      subst hrev2
      rfl
    · have hc2 : c2 ≠ 61 := hX c2 (List.mem_reverse.mp (by rw [hrev2]; simp))
      show (if (61 : Nat) = 61 then if c2 = 61 then r.reverse else (c2 :: r).reverse
        else X ++ List.replicate 1 61) = X
      rw [if_pos rfl, if_neg hc2, ← hrev2, List.reverse_reverse]
  · have hrev : (X ++ List.replicate 2 61).reverse = 61 :: 61 :: X.reverse := by
      rw [List.reverse_append]; rfl
    rw [stripEq2, hrev]
    simp

theorem isB64Code_facts (c : Nat) (h : isB64Code c) :
    c ≠ 61 ∧ c ≠ 45 ∧ c ≠ 95 ∧ c < 256 := by
  unfold isB64Code at h
  omega

theorem atob_btoa (bs : List Nat) (h : ∀ b ∈ bs, b < 256) :
    atobModel (b64body bs ++ List.replicate (b64PadCount bs.length) 61) = some bs := by
  have hmem := b64body_mem bs h
  have hno61 : ∀ c ∈ b64body bs, c ≠ 61 := by
    intro c hc
    obtain ⟨i, hi, rfl⟩ := hmem c hc
    exact (isB64Code_facts _ (b64chr_isCode i hi)).1
  have hnws : ∀ c ∈ b64body bs ++ List.replicate (b64PadCount bs.length) 61,
      (!isB64Ws c) = true := by
    intro c hc
    rcases List.mem_append.mp hc with hc | hc
    · obtain ⟨i, hi, rfl⟩ := hmem c hc
      rw [b64chr_notWs i hi]
      rfl
    · have hc61 : c = 61 := List.eq_of_mem_replicate hc
      subst hc61
      rfl
  have hlen := b64body_length bs
  have hpad : b64PadCount bs.length ≤ 2 := by unfold b64PadCount; omega
  have hmod : ((b64body bs).length + b64PadCount bs.length) % 4 = 0 := by
    unfold b64PadCount
    rw [hlen]
    split_ifs <;> omega
  have hmod2 : ¬ (b64body bs).length % 4 = 1 := by
    rw [hlen]
    split_ifs <;> omega
  obtain ⟨ss, hss, hbytes⟩ := sextets_b64body bs h
  simp only [atobModel]
  rw [List.filter_eq_self.mpr hnws]
  rw [List.length_append, List.length_replicate, if_pos hmod]
  rw [stripEq2_spec _ _ hno61 hpad]
  rw [if_neg hmod2, hss, Option.map_some', hbytes]

theorem encodeText_char (t us : List Nat) (h16 : ∀ c ∈ t, c < 65536)
    (hdec : utf16DecodeList t = some us) :
    encodeText t =
      some (((b64body (us.flatMap utf8EncodeScalar)).map plusToDash).map slashToUnderscore) := by
  have hv : ∀ u ∈ us, validScalar u := (utf16Decode_spec t h16 us hdec).1
  have hbytes : ∀ b ∈ us.flatMap utf8EncodeScalar, b < 256 := by
    intro b hb
    obtain ⟨u, hu, hbu⟩ := List.mem_flatMap.mp hb
    exact utf8EncodeScalar_lt u (hv u hu) b hbu
  have hmem := b64body_mem (us.flatMap utf8EncodeScalar) hbytes
  rw [encodeText, encodeURIComponentModel, hdec, Option.map_some', Option.some_bind]
  rw [replToSolidBytes_uriEscape us hv]
  rw [btoaModel, if_pos hbytes, Option.map_some']
  rw [List.map_append, List.map_append, List.map_replicate, List.map_replicate]
  have e1 : slashToUnderscore (plusToDash 61) = 61 := rfl
  rw [e1]
  rw [dropTrailingEq_spec _ _ (by
    intro c hc
    rw [List.map_map] at hc
    obtain ⟨x, hx, rfl⟩ := List.mem_map.mp hc
    obtain ⟨i, hi, rfl⟩ := hmem x hx
    exact b64chr_repl_ne61 i hi)]

theorem decodeText_token (us : List Nat) (hv : ∀ u ∈ us, validScalar u) :
    decodeText (((b64body (us.flatMap utf8EncodeScalar)).map plusToDash).map slashToUnderscore) =
      some (us.flatMap scalarToUtf16) := by
  have hbytes : ∀ b ∈ us.flatMap utf8EncodeScalar, b < 256 := by
    intro b hb
    obtain ⟨u, hu, hbu⟩ := List.mem_flatMap.mp hb
    exact utf8EncodeScalar_lt u (hv u hu) b hbu
  have hmem := b64body_mem (us.flatMap utf8EncodeScalar) hbytes
  simp only [decodeText]
  rw [List.map_map, List.map_map, List.map_map]
  have hid : (b64body (us.flatMap utf8EncodeScalar)).map
      (((underscoreToSlash ∘ dashToPlus) ∘ slashToUnderscore) ∘ plusToDash) =
      b64body (us.flatMap utf8EncodeScalar) := by
    rw [List.map_congr_left (g := id) (by
      intro x hx
      obtain ⟨i, hi, rfl⟩ := hmem x hx
      exact b64chr_repl_roundtrip i hi)]
    exact List.map_id _
  rw [hid]
  have hpadeq : (4 - (b64body (us.flatMap utf8EncodeScalar)).length % 4) % 4 =
      b64PadCount (us.flatMap utf8EncodeScalar).length := by
    rw [b64body_length]
    unfold b64PadCount
    split_ifs <;> omega
  rw [hpadeq, atob_btoa _ hbytes, Option.some_bind]
  rw [decodeURIComponentModel, uriDecodeBytes_escape _ hbytes, Option.some_bind]
  rw [utf8_roundtrip_list us hv, Option.map_some']

theorem b64chr_repl_isTokenChar : ∀ i < 64,
    isTokenChar (slashToUnderscore (plusToDash (b64chr i))) := by decide

/-- Claim C1: for every valid Unicode string `t` (empty string, emoji and
combining characters included), decoding the token produced by encoding
`t` returns exactly `t`. -/
theorem claim1_codec_roundtrip (t : JSStr) (h : wellFormed16 t) :
    ∃ tok, encodeText t = some tok ∧ decodeText tok = some t := by
  obtain ⟨h16, hsome⟩ := h
  obtain ⟨us, hdec⟩ := Option.isSome_iff_exists.mp hsome
  have hv := (utf16Decode_spec t h16 us hdec).1
  have ht := (utf16Decode_spec t h16 us hdec).2
  refine ⟨_, encodeText_char t us h16 hdec, ?_⟩
  rw [decodeText_token us hv, ht]

/-- Witness for C1 at the concrete string `"Hello, 世界! 🎉"`. -/
theorem claim1_codec_roundtrip_witness :
    wellFormed16 (jstr "Hello, 世界! 🎉") ∧
      ∃ tok, encodeText (jstr "Hello, 世界! 🎉") = some tok ∧
        decodeText tok = some (jstr "Hello, 世界! 🎉") :=
  ⟨by decide, claim1_codec_roundtrip _ (by decide)⟩

/-- Claim C2: whenever encoding succeeds, every character of the produced
token lies in the alphabet `[A-Za-z0-9_-]` — no `+`, no `/`, no `=`.
(The hypothesis that the input's code units are 16-bit holds for every
actual JavaScript string.) -/
theorem claim2_token_alphabet (t tok : JSStr) (h16 : ∀ c ∈ t, c < 65536)
    (h : encodeText t = some tok) : ∀ c ∈ tok, isTokenChar c := by
  rcases hdec : utf16DecodeList t with _ | us
  · rw [encodeText, encodeURIComponentModel, hdec] at h
    simp at h
  · rw [encodeText_char t us h16 hdec] at h
    injection h with h
    subst h
    intro c hc
    rw [List.map_map] at hc
    obtain ⟨x, hx, rfl⟩ := List.mem_map.mp hc
    obtain ⟨i, hi, rfl⟩ :=
      b64body_mem _ (fun b hb => by
        obtain ⟨u, hu, hbu⟩ := List.mem_flatMap.mp hb
        exact utf8EncodeScalar_lt u ((utf16Decode_spec t h16 us hdec).1 u hu) b hbu) x hx
    exact b64chr_repl_isTokenChar i hi

/-- Witness for C2 at the concrete input `"Hi"`, token `"SGk"`. -/
theorem claim2_token_alphabet_witness : isTokenChar 83 :=
  claim2_token_alphabet (jstr "Hi") (jstr "SGk") (by decide) (by decide) 83 (by decide)

theorem utf8Aux_valid : ∀ (bs : List Nat) (needed acc lower upper : Nat) (us : List Nat),
    utf8StateOK needed acc lower upper →
    utf8DecodeAux needed acc lower upper bs = some us →
    ∀ u ∈ us, validScalar u := by
  intro bs
  induction bs with
  | nil =>
    intro needed acc lower upper us hok h
    match needed with
    | 0 =>
      rw [utf8DecodeAux] at h
      injection h with h
      subst h
      intro u hu
      simp at hu
    | n + 1 =>
      rw [utf8DecodeAux] at h
      exact absurd h (by simp)
  | cons b rest ih =>
    intro needed acc lower upper us hok h
    match needed with
    | 0 =>
      rw [utf8DecodeAux] at h
      by_cases c1 : b < 128
      · rw [if_pos c1, Option.map_eq_some'] at h
        obtain ⟨us2, h2, rfl⟩ := h
        intro u hu
        rcases List.mem_cons.mp hu with hu | hu
        · exact ⟨by omega, by omega⟩
        · exact ih 0 0 128 191 us2 (by unfold utf8StateOK; omega) h2 u hu
      · rw [if_neg c1] at h
        by_cases c2 : 194 ≤ b ∧ b ≤ 223
        · rw [if_pos c2] at h
          exact ih _ _ _ _ us (by unfold utf8StateOK; omega) h
        · rw [if_neg c2] at h
          by_cases c3 : 224 ≤ b ∧ b ≤ 239
          · rw [if_pos c3] at h
            refine ih _ _ _ _ us ?_ h
            unfold utf8StateOK
            constructor
            · omega
            refine ⟨by omega, by omega, ?_, by omega⟩
            intro _
            by_cases hb0 : b = 224
            · subst hb0
              left
              refine ⟨by omega, ?_, ?_, ?_, ?_⟩ <;> intro hx <;> split_ifs <;> omega
            · by_cases hb13 : b = 237
              · subst hb13
                left
                refine ⟨by omega, ?_, ?_, ?_, ?_⟩ <;> intro hx <;> split_ifs <;> omega
              · left
                refine ⟨by omega, ?_, ?_, ?_, ?_⟩ <;> intro hx <;> split_ifs <;> omega
          · rw [if_neg c3] at h
            by_cases c4 : 240 ≤ b ∧ b ≤ 244
            · rw [if_pos c4] at h
              refine ih _ _ _ _ us ?_ h
              unfold utf8StateOK
              refine ⟨by omega, by omega, by omega, by omega, ?_⟩
              intro _
              refine ⟨by omega, ?_, ?_, ?_, ?_⟩ <;> intro hx <;> split_ifs <;> omega
            · rw [if_neg c4] at h
              exact absurd h (by simp)
    | n + 1 =>
      rw [utf8DecodeAux] at h
      by_cases c1 : lower ≤ b ∧ b ≤ upper
      · rw [if_pos c1] at h
        by_cases c2 : n = 0
        · subst c2
          rw [if_pos rfl, Option.map_eq_some'] at h
          obtain ⟨us2, h2, rfl⟩ := h
          intro u hu
          rcases List.mem_cons.mp hu with hu | hu
          · unfold utf8StateOK at hok
            exact ⟨by omega, by omega⟩
          · exact ih 0 0 128 191 us2 (by unfold utf8StateOK; omega) h2 u hu
        · rw [if_neg c2] at h
          refine ih _ _ _ _ us ?_ h
          unfold utf8StateOK at hok ⊢
          omega
      · rw [if_neg c1] at h
        exact absurd h (by simp)

theorem b64chrVal_lt (c s : Nat) (h : b64chrVal c = some s) : s < 64 := by
  unfold b64chrVal at h
  split_ifs at h <;> (injection h with h; omega)

theorem sextetsOfCodes_lt : ∀ (l ss : List Nat), sextetsOfCodes l = some ss →
    ∀ s ∈ ss, s < 64 := by
  intro l
  induction l with
  | nil =>
    intro ss h
    rw [sextetsOfCodes] at h
    injection h with h
    subst h
    intro s hs
    simp at hs
  | cons c rest ih =>
    intro ss h
    rw [sextetsOfCodes] at h
    rcases hv : b64chrVal c with _ | v
    · rw [hv] at h; exact absurd h (by simp)
    · rw [hv] at h
      rcases hrec : sextetsOfCodes rest with _ | ss2
      · rw [hrec] at h; exact absurd h (by simp)
      · rw [hrec] at h
        injection h with h
        subst h
        intro s hs
        rcases List.mem_cons.mp hs with hs | hs
        · subst hs; exact b64chrVal_lt c s hv
        · exact ih ss2 hrec s hs

theorem sextetsToBytes_lt : ∀ (ss : List Nat), (∀ s ∈ ss, s < 64) →
    ∀ b ∈ sextetsToBytes ss, b < 256 := by
  intro ss
  induction ss using sextetsToBytes.induct with
  | case1 s0 s1 s2 s3 rest ih =>
    intro h b hb
    have h0 : s0 < 64 := h s0 (by simp)
    have h1 : s1 < 64 := h s1 (by simp)
    have h2 : s2 < 64 := h s2 (by simp)
    have h3 : s3 < 64 := h s3 (by simp)
    rw [sextetsToBytes] at hb
    rcases List.mem_cons.mp hb with hb | hb
    · omega
    rcases List.mem_cons.mp hb with hb | hb
    · omega
    rcases List.mem_cons.mp hb with hb | hb
    · omega
    · exact ih (fun s hs => h s (by simp [hs])) b hb
  | case2 s0 s1 =>
    intro h b hb
    have h0 : s0 < 64 := h s0 (by simp)
    have h1 : s1 < 64 := h s1 (by simp)
    rw [sextetsToBytes] at hb
    simp at hb
    omega
  | case3 s0 s1 s2 =>
    intro h b hb
    have h0 : s0 < 64 := h s0 (by simp)
    have h1 : s1 < 64 := h s1 (by simp)
    have h2 : s2 < 64 := h s2 (by simp)
    rw [sextetsToBytes] at hb
    simp at hb
    rcases hb with hb | hb <;> omega
  | case4 ss hne1 hne2 hne3 =>
    intro h b hb
    rcases ss with _ | ⟨s0, rest⟩
    · simp [sextetsToBytes] at hb
    · rcases rest with _ | ⟨s1, rest2⟩
      · simp [sextetsToBytes] at hb
      · rcases rest2 with _ | ⟨s2, rest3⟩
        · exact absurd rfl (hne2 s0 s1)
        · rcases rest3 with _ | ⟨s3, rest4⟩
          · exact absurd rfl (hne3 s0 s1 s2)
          · exact absurd rfl (hne1 s0 s1 s2 s3 rest4)

theorem atobModel_lt (l bytes : List Nat) (h : atobModel l = some bytes) :
    ∀ b ∈ bytes, b < 256 := by
  simp only [atobModel] at h
  split_ifs at h <;>
    (rw [Option.map_eq_some'] at h
     obtain ⟨ss, hss, rfl⟩ := h
     exact sextetsToBytes_lt ss (sextetsOfCodes_lt _ ss hss))

theorem scalarToUtf16_units_lt (u : Nat) (hu : validScalar u) :
    ∀ c ∈ scalarToUtf16 u, c < 65536 := by
  obtain ⟨h1, _⟩ := hu
  intro c hc
  rw [scalarToUtf16] at hc
  by_cases hlt : u < 65536
  · rw [if_pos hlt] at hc; simp at hc; omega
  · rw [if_neg hlt] at hc; simp at hc; rcases hc with hc | hc <;> omega

theorem decodeText_wellFormed (tok d : JSStr) (h : decodeText tok = some d) :
    wellFormed16 d := by
  simp only [decodeText] at h
  rw [Option.bind_eq_some] at h
  obtain ⟨bytes, hbytes, hf⟩ := h
  have blt : ∀ b ∈ bytes, b < 256 := atobModel_lt _ _ hbytes
  rw [decodeURIComponentModel, uriDecodeBytes_escape _ blt, Option.some_bind,
    Option.map_eq_some'] at hf
  obtain ⟨us, hus, rfl⟩ := hf
  have hv : ∀ u ∈ us, validScalar u :=
    utf8Aux_valid bytes 0 0 128 191 us (by unfold utf8StateOK; omega) hus
  constructor
  · intro c hc
    obtain ⟨u, hu, hcu⟩ := List.mem_flatMap.mp hc
    exact scalarToUtf16_units_lt u (hv u hu) c hcu
  · rw [utf16Encode_decode us hv]
    rfl

/-- Counterexample to C4 as stated: the token `"aG="` is malformed in the
claim's sense — its `=` lies outside the token alphabet `[A-Za-z0-9_-]`,
so `encodeText` can never produce it — yet decoding does not signal
failure: the re-padding on line 22 turns it into `"aG=="`, forgiving
base64 strips the padding, and the decode succeeds with `"h"`. -/
theorem claim4_decode_cex :
    ¬ (∀ c ∈ jstr "aG=", isTokenChar c) ∧ decodeText (jstr "aG=") = some (jstr "h") :=
  ⟨by decide, by decide⟩

/-- Claim C4 amended: decoding is a total function into an option type (a
thrown exception in `atob` or `decodeURIComponent` is caught and surfaced
as `null`, never an uncaught fault): the concrete malformed token
`"not-a-valid-token-!!!"` yields the failure value, and a successful
decode always returns a well-formed Unicode string — never corrupted text
with lone surrogates or out-of-range code units.  Not every token outside
the alphabet is rejected, though: forgiving base64 and the re-padding
accept some of them, such as `"aG="`. -/
theorem claim4_decode_robust :
    decodeText (jstr "not-a-valid-token-!!!") = none ∧
      ∀ tok d, decodeText tok = some d → wellFormed16 d :=
  ⟨by decide, fun tok d h => decodeText_wellFormed tok d h⟩

/-- Witness for C4, applying the second conjunct at the concrete token
`"SGk"`. -/
theorem claim4_decode_robust_witness : wellFormed16 (jstr "Hi") :=
  claim4_decode_robust.2 (jstr "SGk") (jstr "Hi") (by decide)

/-- Claim C5: the history update inserts the new entry at the front and
truncates to at most five entries; appending seven entries to an empty
list yields exactly the five most recent, most-recent-first. -/
theorem claim5_history_bound :
    (∀ (e : HistoryEntry) (h : List HistoryEntry),
      (appendHistory e h).length ≤ 5 ∧ (appendHistory e h).head? = some e) ∧
    (∀ e1 e2 e3 e4 e5 e6 e7 : HistoryEntry,
      List.foldl (fun h e => appendHistory e h) [] [e1, e2, e3, e4, e5, e6, e7] =
        [e7, e6, e5, e4, e3]) := by
  constructor
  · intro e h
    exact ⟨List.length_take_le 5 (e :: h), rfl⟩
  · intro e1 e2 e3 e4 e5 e6 e7
    rfl

/-- Claim C8: a blank (empty or whitespace-only) input is rejected before
the codec runs: the whole state is unchanged except for the error toast —
in particular no link is generated and no history entry is added. -/
theorem claim8_blank_rejected (origin path : JSStr) (now : Nat) (dateStr : JSStr)
    (st : AppState) (h : jsTrim st.text = []) :
    handleGenerate origin path now dateStr st =
      { st with toast := some { message := enterTextMsg, type := ToastType.error } } := by
  rw [handleGenerate, if_pos h]

/-- Witness for C8 at a whitespace-only input. -/
theorem claim8_blank_rejected_witness :
    handleGenerate (jstr "https://x.test") (jstr "/app") 0 (jstr "1/1/2026")
        { text := jstr "  ", mode := Mode.create, generatedLink := [], toast := none,
          history := [], fragment := [] } =
      { text := jstr "  ", mode := Mode.create, generatedLink := [],
        toast := some { message := enterTextMsg, type := ToastType.error },
        history := [], fragment := [] } :=
  claim8_blank_rejected (jstr "https://x.test") (jstr "/app") 0 (jstr "1/1/2026") _ (by decide)

/-- Claim C10: generating a link from a non-blank input in `create` mode
leaves the input text, the mode and the fragment unchanged; only the
generated link, the history and the toast are written. -/
theorem claim10_generate_frame (origin path : JSStr) (now : Nat) (dateStr : JSStr)
    (st : AppState) (hm : st.mode = Mode.create) (ht : jsTrim st.text ≠ []) :
    (handleGenerate origin path now dateStr st).text = st.text ∧
    (handleGenerate origin path now dateStr st).mode = Mode.create ∧
    (handleGenerate origin path now dateStr st).fragment = st.fragment := by
  rw [handleGenerate, if_neg ht]
  exact ⟨rfl, hm, rfl⟩

/-- Witness for C10 at a concrete `create`-mode state with text `"Hi"`. -/
theorem claim10_generate_frame_witness :
    (handleGenerate (jstr "https://x.test") (jstr "/app") 0 (jstr "1/1/2026")
        { text := jstr "Hi", mode := Mode.create, generatedLink := [], toast := none,
          history := [], fragment := [] }).text = jstr "Hi" ∧
    (handleGenerate (jstr "https://x.test") (jstr "/app") 0 (jstr "1/1/2026")
        { text := jstr "Hi", mode := Mode.create, generatedLink := [], toast := none,
          history := [], fragment := [] }).mode = Mode.create ∧
    (handleGenerate (jstr "https://x.test") (jstr "/app") 0 (jstr "1/1/2026")
        { text := jstr "Hi", mode := Mode.create, generatedLink := [], toast := none,
          history := [], fragment := [] }).fragment = [] :=
  claim10_generate_frame (jstr "https://x.test") (jstr "/app") 0 (jstr "1/1/2026") _
    rfl (by decide)

/-- Claim C7 is violated by the code: on an input whose encoding fails
(a lone surrogate), `handleGenerate` does not surface the failure — the
template literal stringifies `null`, a link ending in `#null` is
generated, a history entry is added, and a success toast is shown. -/
theorem claim7_encode_failure_bug :
    encodeText [55296] = none ∧
    (handleGenerate (jstr "https://x.test") (jstr "/app") 7 (jstr "1/1/2026")
        { text := [55296], mode := Mode.create, generatedLink := [], toast := none,
          history := [], fragment := [] }) =
      { text := [55296], mode := Mode.create,
        generatedLink := jstr "https://x.test" ++ jstr "/app" ++ [35] ++ jstr "null",
        toast := some { message := linkGeneratedMsg, type := ToastType.success },
        history := [⟨7, [55296], jstr "1/1/2026",
          jstr "https://x.test" ++ jstr "/app" ++ [35] ++ jstr "null"⟩],
        fragment := [] } := by
  constructor
  · rfl
  · decide

theorem scalarToUtf16_ne_nil (u : Nat) : scalarToUtf16 u ≠ [] := by
  rw [scalarToUtf16]
  split_ifs <;> simp

theorem utf8Aux_pos_ne_nil : ∀ (bs : List Nat) (n acc lower upper : Nat) (us : List Nat),
    utf8DecodeAux (n + 1) acc lower upper bs = some us → us ≠ [] := by
  intro bs
  induction bs with
  | nil =>
    intro n acc lower upper us h
    rw [utf8DecodeAux] at h
    exact absurd h (by simp)
  | cons b rest ih =>
    intro n acc lower upper us h
    rw [utf8DecodeAux] at h
    by_cases c1 : lower ≤ b ∧ b ≤ upper
    · rw [if_pos c1] at h
      by_cases c2 : n = 0
      · subst c2
        rw [if_pos rfl, Option.map_eq_some'] at h
        obtain ⟨us2, _, rfl⟩ := h
        simp
      · rw [if_neg c2] at h
        obtain ⟨m, rfl⟩ := Nat.exists_eq_succ_of_ne_zero c2
        exact ih m _ _ _ us h
    · rw [if_neg c1] at h
      exact absurd h (by simp)

theorem utf8Aux_top_ne_nil (b : Nat) (rest : List Nat) (us : List Nat)
    (h : utf8DecodeAux 0 0 128 191 (b :: rest) = some us) : us ≠ [] := by
  rw [utf8DecodeAux] at h
  by_cases c1 : b < 128
  · rw [if_pos c1, Option.map_eq_some'] at h
    obtain ⟨us2, _, rfl⟩ := h
    simp
  · rw [if_neg c1] at h
    by_cases c2 : 194 ≤ b ∧ b ≤ 223
    · rw [if_pos c2] at h
      exact utf8Aux_pos_ne_nil rest 0 _ _ _ us h
    · rw [if_neg c2] at h
      by_cases c3 : 224 ≤ b ∧ b ≤ 239
      · rw [if_pos c3] at h
        exact utf8Aux_pos_ne_nil rest 1 _ _ _ us h
      · rw [if_neg c3] at h
        by_cases c4 : 240 ≤ b ∧ b ≤ 244
        · rw [if_pos c4] at h
          exact utf8Aux_pos_ne_nil rest 2 _ _ _ us h
        · rw [if_neg c4] at h
          exact absurd h (by simp)

theorem sextetsOfCodes_length : ∀ (l ss : List Nat), sextetsOfCodes l = some ss →
    ss.length = l.length := by
  intro l
  induction l with
  | nil =>
    intro ss h
    rw [sextetsOfCodes] at h
    injection h with h
    subst h
    rfl
  | cons c rest ih =>
    intro ss h
    rw [sextetsOfCodes] at h
    rcases hv : b64chrVal c with _ | v
    · rw [hv] at h; exact absurd h (by simp)
    · rw [hv] at h
      rcases hrec : sextetsOfCodes rest with _ | ss2
      · rw [hrec] at h; exact absurd h (by simp)
      · rw [hrec] at h
        injection h with h
        subst h
        simp [ih ss2 hrec]

theorem sextetsToBytes_ne_nil (ss : List Nat) (h : 2 ≤ ss.length) :
    sextetsToBytes ss ≠ [] := by
  rcases ss with _ | ⟨s0, rest⟩
  · simp at h
  rcases rest with _ | ⟨s1, rest2⟩
  · simp at h
  rcases rest2 with _ | ⟨s2, rest3⟩
  · simp [sextetsToBytes]
  rcases rest3 with _ | ⟨s3, rest4⟩
  · simp [sextetsToBytes]
  · simp [sextetsToBytes]

theorem stripEq2_length (l : List Nat) : l.length - 2 ≤ (stripEq2 l).length := by
  rw [stripEq2]
  rcases hrev : l.reverse with _ | ⟨c1, rest⟩
  · have : l = [] := by
      rw [← List.reverse_reverse l, hrev]
      rfl
    subst this
    simp
  · have hl : l.length = rest.length + 1 := by
      rw [← List.length_reverse l, hrev]
      rfl
    rcases rest with _ | ⟨c2, rest2⟩
    · show l.length - 2 ≤ (if c1 = 61 then ([] : List Nat) else l).length
      have h1 : l.length = 1 := by simpa using hl
      split_ifs
      · simp
        omega
      · simp
    · have hr : rest2.length + 2 = l.length := by simpa using hl.symm
      show l.length - 2 ≤
        (if c1 = 61 then if c2 = 61 then rest2.reverse else (c2 :: rest2).reverse else l).length
      split_ifs <;> simp <;> omega

theorem repl_not_ws (x : Nat) (h : isB64Ws x = false) :
    isB64Ws (underscoreToSlash (dashToPlus x)) = false := by
  rw [dashToPlus, underscoreToSlash]
  split_ifs with h1 h2 <;> first | rfl | exact h

theorem decodeText_ne_nil (tok d : JSStr) (hne : tok ≠ [])
    (hws : ∀ c ∈ tok, isB64Ws c = false) (h : decodeText tok = some d) : d ≠ [] := by
  simp only [decodeText] at h
  rw [Option.bind_eq_some] at h
  obtain ⟨bytes, hb, hf⟩ := h
  have hlen : ((tok.map dashToPlus).map underscoreToSlash).length = tok.length := by
    simp
  have hlen1 : 1 ≤ tok.length := by
    rcases tok with _ | _
    · exact absurd rfl hne
    · simp
  have hbws : ∀ c ∈ (tok.map dashToPlus).map underscoreToSlash, isB64Ws c = false := by
    intro c hc
    rw [List.map_map] at hc
    obtain ⟨x, hx, rfl⟩ := List.mem_map.mp hc
    exact repl_not_ws x (hws x hx)
  set base64 := (tok.map dashToPlus).map underscoreToSlash with hbase
  set padded := base64 ++ List.replicate ((4 - base64.length % 4) % 4) 61 with hpad
  have hpws : ∀ c ∈ padded, (!isB64Ws c) = true := by
    intro c hc
    rcases List.mem_append.mp hc with hc | hc
    · rw [hbws c hc]; rfl
    · have : c = 61 := List.eq_of_mem_replicate hc
      subst this; rfl
  have hplen : padded.length = base64.length + (4 - base64.length % 4) % 4 := by
    rw [hpad, List.length_append, List.length_replicate]
  have hpmod : padded.length % 4 = 0 := by omega
  have hplen4 : 4 ≤ padded.length := by omega
  simp only [atobModel] at hb
  rw [List.filter_eq_self.mpr hpws, if_pos hpmod] at hb
  by_cases hs1 : (stripEq2 padded).length % 4 = 1
  · rw [if_pos hs1] at hb
    exact absurd hb (by simp)
  · rw [if_neg hs1, Option.map_eq_some'] at hb
    obtain ⟨ss, hss, rfl⟩ := hb
    have hsslen : 2 ≤ ss.length := by
      have h1 := sextetsOfCodes_length _ ss hss
      have h2 := stripEq2_length padded
      omega
    have hbne : sextetsToBytes ss ≠ [] := sextetsToBytes_ne_nil ss hsslen
    have hblt : ∀ b ∈ sextetsToBytes ss, b < 256 :=
      sextetsToBytes_lt ss (sextetsOfCodes_lt _ ss hss)
    rw [decodeURIComponentModel, uriDecodeBytes_escape _ hblt, Option.some_bind,
      Option.map_eq_some'] at hf
    obtain ⟨us, hus, rfl⟩ := hf
    rcases hby : sextetsToBytes ss with _ | ⟨b0, brest⟩
    · exact absurd hby hbne
    · rw [hby, utf8DecodeList] at hus
      have husne : us ≠ [] := utf8Aux_top_ne_nil b0 brest us hus
      rcases us with _ | ⟨u, urest⟩
      · exact absurd rfl husne
      · rw [List.flatMap_cons]
        intro hcontra
        rcases List.append_eq_nil.mp hcontra with ⟨h1, _⟩
        exact scalarToUtf16_ne_nil u h1

theorem handleHashChange_empty (st : AppState) (h : st.fragment = []) :
    handleHashChange st = { st with mode := Mode.create, text := [] } := by
  rw [handleHashChange, if_pos h]

theorem handleHashChange_success (st : AppState) (d : JSStr) (hne : st.fragment ≠ [])
    (hd : decodeText st.fragment = some d) (hdne : d ≠ []) :
    handleHashChange st = { st with text := d, mode := Mode.view } := by
  rw [handleHashChange, if_neg hne]
  simp only [hd, if_neg hdne]

theorem handleHashChange_failure (st : AppState) (hne : st.fragment ≠ [])
    (hd : decodeText st.fragment = none ∨ decodeText st.fragment = some []) :
    handleHashChange st = hashErrorUpdate st := by
  rw [handleHashChange, if_neg hne]
  rcases hd with hd | hd <;> simp [hd]

theorem processHashChange_empty (st : AppState) (h : st.fragment = []) :
    processHashChange st = { st with mode := Mode.create, text := [] } := by
  simp only [processHashChange, handleHashChange_empty st h]
  simp

theorem processHashChange_success (st : AppState) (d : JSStr) (hne : st.fragment ≠ [])
    (hd : decodeText st.fragment = some d) (hdne : d ≠ []) :
    processHashChange st = { st with text := d, mode := Mode.view } := by
  simp only [processHashChange, handleHashChange_success st d hne hd hdne]
  simp

theorem processHashChange_failure (st : AppState) (hne : st.fragment ≠ [])
    (hd : decodeText st.fragment = none ∨ decodeText st.fragment = some []) :
    processHashChange st =
      { st with toast := some { message := invalidLinkMsg, type := ToastType.error },
                fragment := [], mode := Mode.create, text := [] } := by
  simp only [processHashChange, handleHashChange_failure st hne hd]
  rw [if_neg (by
    show ([] : JSStr) ≠ st.fragment
    exact fun hh => hne hh.symm)]
  rw [handleHashChange_empty (hashErrorUpdate st) rfl]
  rfl

/-- Claim C3: on observing a non-empty fragment, the router decodes it;
on success the mode becomes `view` and the exposed text is the decoded
string; on failure an error toast is emitted, the fragment is cleared
(firing one more `hashchange`, which the model folds in), the mode becomes
`create` and the exposed text is empty.  The whitespace-freeness
hypothesis delimits the observable inputs: a browser URL fragment can
never contain the ASCII whitespace that forgiving-base64 would strip
(the URL parser removes tab/LF/CR and percent-encodes space and form
feed), and it rules out the one fragment shape that decodes to the empty
string, which JavaScript truthiness conflates with failure. -/
theorem claim3_router_fragment (st : AppState) (hne : st.fragment ≠ [])
    (hws : ∀ c ∈ st.fragment, isB64Ws c = false) :
    (∀ d, decodeText st.fragment = some d →
      (processHashChange st).mode = Mode.view ∧ (processHashChange st).text = d) ∧
    (decodeText st.fragment = none →
      (processHashChange st).toast =
          some { message := invalidLinkMsg, type := ToastType.error } ∧
        (processHashChange st).fragment = [] ∧
        (processHashChange st).mode = Mode.create ∧
        (processHashChange st).text = []) := by
  constructor
  · intro d hd
    have hdne : d ≠ [] := decodeText_ne_nil st.fragment d hne hws hd
    rw [processHashChange_success st d hne hd hdne]
    exact ⟨rfl, rfl⟩
  · intro hd
    rw [processHashChange_failure st hne (Or.inl hd)]
    exact ⟨rfl, rfl, rfl, rfl⟩

/-- Witness for C3 at the concrete fragment `"SGk"`, which decodes to
`"Hi"`. -/
theorem claim3_router_fragment_witness :
    (processHashChange ⟨[], Mode.create, [], none, [], jstr "SGk"⟩).mode = Mode.view ∧
    (processHashChange ⟨[], Mode.create, [], none, [], jstr "SGk"⟩).text = jstr "Hi" :=
  (claim3_router_fragment _ (by decide) (by decide)).1 (jstr "Hi") (by decide)

/-- Claim C9: processing the same fragment value twice in a row yields
the same mode and the same exposed text both times; in fact the second
run leaves the whole state exactly as the first run left it. -/
theorem claim9_router_idempotent (st : AppState) (f : JSStr) :
    (processHashChange { processHashChange { st with fragment := f } with fragment := f }).mode =
        (processHashChange { st with fragment := f }).mode ∧
      (processHashChange { processHashChange { st with fragment := f } with fragment := f }).text =
        (processHashChange { st with fragment := f }).text ∧
      processHashChange { processHashChange { st with fragment := f } with fragment := f } =
        processHashChange { st with fragment := f } := by
  have h3 : processHashChange { processHashChange { st with fragment := f } with fragment := f } =
      processHashChange { st with fragment := f } := by
    obtain ⟨t0, m0, g0, to0, h0, fr0⟩ := st
    by_cases hf : f = []
    · subst hf
      simp [processHashChange, handleHashChange]
    · have hf2 : ¬(([] : JSStr) = f) := fun h => hf h.symm
      rcases hd : decodeText f with _ | d
      · simp [processHashChange, handleHashChange, hashErrorUpdate, hf, hf2, hd]
      · by_cases hdnil : d = []
        · subst hdnil
          simp [processHashChange, handleHashChange, hashErrorUpdate, hf, hf2, hd]
        · simp [processHashChange, handleHashChange, hashErrorUpdate, hf, hf2, hd, hdnil]
  exact ⟨by rw [h3], by rw [h3], h3⟩

/-- Counterexample to C6 as stated: the persisted value `"{oops"` is
malformed (`JSON.parse` rejects it), yet the load does not return an
empty list — the unguarded `JSON.parse` on line 81 of src/index.jsx
throws an uncaught `SyntaxError` inside the mount effect, crashing the
consuming component. -/
theorem claim6_load_counterexample :
    jsonParse (jstr "\x7boops") = none ∧
      loadHistoryModel (some (jstr "\x7boops")) = LoadResult.thrown ∧
      loadHistoryModel (some (jstr "\x7boops")) ≠ LoadResult.history (Json.arr []) := by
  refine ⟨rfl, rfl, fun h => LoadResult.noConfusion h⟩

/-- Claim C6 amended: the load returns the empty list when no value is
persisted (or the persisted value is the empty string, which is falsy);
when a non-empty value is persisted it is handed to `JSON.parse` with no
exception handler, so a malformed value makes the load throw instead of
returning an empty list, and a well-formed value is installed as the
history whatever its shape. -/
theorem claim6_load_amended :
    loadHistoryModel none = LoadResult.history (Json.arr []) ∧
    loadHistoryModel (some []) = LoadResult.history (Json.arr []) ∧
    (∀ s : JSStr, s ≠ [] → jsonParse s = none →
      loadHistoryModel (some s) = LoadResult.thrown) ∧
    (∀ (s : JSStr) (v : Json), s ≠ [] → jsonParse s = some v →
      loadHistoryModel (some s) = LoadResult.history v) := by
  refine ⟨rfl, rfl, ?_, ?_⟩
  · intro s hne hp
    simp only [loadHistoryModel, if_neg hne, hp]
  · intro s v hne hp
    simp only [loadHistoryModel, if_neg hne, hp]

/-- Witness for the amended C6 at the concrete persisted value `"[]"`. -/
theorem claim6_load_amended_witness :
    loadHistoryModel (some (jstr "[]")) = LoadResult.history (Json.arr []) :=
  claim6_load_amended.2.2.2 (jstr "[]") (Json.arr []) (by decide) (by rfl)
